import Mathlib

/-!
Verification of the xtask utility of the atcoder-rust-template repository.

The development shallowly embeds the pure core of src/xtask/src/main.rs:
the sample extractor (parse_samples and its helpers classify_heading,
normalize_pre, ensure_trailing_newline and the trailing-index regex),
the case resolver (candidate_inputs and the resolution loop of run_case),
the target-slug normalizer of run_tests, and the write policy of
fetch_samples.  Rust strings are modelled as lists of characters,
BTreeMap as a strictly-sorted association list, the filesystem as an
existence predicate on paths, and usize as a natural number bounded by
2^64 - 1 (64-bit target), with parse overflow made explicit.
-/

/-- Rust string slices / Strings, modelled as lists of characters. -/
abbrev Str := List Char

/-- Rust char::is_ascii_digit: the character is one of 0..9. -/
def isAsciiDigit (c : Char) : Bool :=
  48 ≤ c.toNat && c.toNat ≤ 57

/-- The code-point ranges of the Unicode general category Nd (decimal
digits), as shipped by the regex crate for its default Unicode mode:
the class the pattern \d matches. -/
def ndRanges : List (Nat × Nat) :=
  [(0x30, 0x39), (0x660, 0x669), (0x6F0, 0x6F9), (0x7C0, 0x7C9),
   (0x966, 0x96F), (0x9E6, 0x9EF), (0xA66, 0xA6F), (0xAE6, 0xAEF),
   (0xB66, 0xB6F), (0xBE6, 0xBEF), (0xC66, 0xC6F), (0xCE6, 0xCEF),
   (0xD66, 0xD6F), (0xDE6, 0xDEF), (0xE50, 0xE59), (0xED0, 0xED9),
   (0xF20, 0xF29), (0x1040, 0x1049), (0x1090, 0x1099), (0x17E0, 0x17E9),
   (0x1810, 0x1819), (0x1946, 0x194F), (0x19D0, 0x19D9),
   (0x1A80, 0x1A89), (0x1A90, 0x1A99), (0x1B50, 0x1B59),
   (0x1BB0, 0x1BB9), (0x1C40, 0x1C49), (0x1C50, 0x1C59),
   (0xA620, 0xA629), (0xA8D0, 0xA8D9), (0xA900, 0xA909),
   (0xA9D0, 0xA9D9), (0xA9F0, 0xA9F9), (0xAA50, 0xAA59),
   (0xABF0, 0xABF9), (0xFF10, 0xFF19), (0x104A0, 0x104A9),
   (0x10D30, 0x10D39), (0x10D40, 0x10D49), (0x11066, 0x1106F),
   (0x110F0, 0x110F9), (0x11136, 0x1113F), (0x111D0, 0x111D9),
   (0x112F0, 0x112F9), (0x11450, 0x11459), (0x114D0, 0x114D9),
   (0x11650, 0x11659), (0x116C0, 0x116C9), (0x116D0, 0x116E3),
   (0x11730, 0x11739), (0x118E0, 0x118E9), (0x11950, 0x11959),
   (0x11BF0, 0x11BF9), (0x11C50, 0x11C59), (0x11D50, 0x11D59),
   (0x11DA0, 0x11DA9), (0x11F50, 0x11F59), (0x16130, 0x16139),
   (0x16A60, 0x16A69), (0x16AC0, 0x16AC9), (0x16B50, 0x16B59),
   (0x16D70, 0x16D79), (0x1CCF0, 0x1CCF9), (0x1D7CE, 0x1D7FF),
   (0x1E140, 0x1E149), (0x1E2F0, 0x1E2F9), (0x1E4F0, 0x1E4F9),
   (0x1E5F1, 0x1E5FA), (0x1E950, 0x1E959), (0x1FBF0, 0x1FBF9)]

/-- The regex class \d in the default Unicode mode of the regex crate:
any Unicode decimal digit (general category Nd), not only ASCII. -/
def isUnicodeDigit (c : Char) : Bool :=
  ndRanges.any (fun r => r.1 ≤ c.toNat && c.toNat ≤ r.2)

/-- Rust char::is_whitespace and the regex class \s (Unicode White_Space):
the exact set of code points with the White_Space property. -/
def isRustWhitespace (c : Char) : Bool :=
  (([9, 10, 11, 12, 13, 32, 133, 160, 5760, 8192, 8193, 8194, 8195, 8196,
     8197, 8198, 8199, 8200, 8201, 8202, 8232, 8233, 8239, 8287, 12288] :
     List Nat).contains c.toNat)

/-- Rust char::to_ascii_lowercase, applied characterwise by
str::to_ascii_lowercase. -/
def toAsciiLower (c : Char) : Char :=
  if 65 ≤ c.toNat && c.toNat ≤ 90 then Char.ofNat (c.toNat + 32) else c

/-- Rust str::contains with a string pattern: substring containment. -/
def containsSub (hay needle : Str) : Bool :=
  needle.isPrefixOf hay ||
    match hay with
    | [] => false
    | _ :: t => containsSub t needle

/-- Rust str::ends_with with a string pattern: suffix test. -/
def endsWithList (s pat : Str) : Bool :=
  pat.reverse.isPrefixOf s.reverse

/-- Rust str::trim: remove leading and trailing Unicode whitespace. -/
def trimStr (s : Str) : Str :=
  ((s.dropWhile isRustWhitespace).reverse.dropWhile isRustWhitespace).reverse

/-- Value of a digit string read in base 10 (unbounded). -/
def digitsToNat (s : Str) : Nat :=
  s.foldl (fun a c => a * 10 + (c.toNat - 48)) 0

/-- usize::MAX on the 64-bit targets the xtask runs on. -/
def USIZE_MAX : Nat := 2 ^ 64 - 1

/-- Rust str::parse::<usize>() restricted to the call sites of the xtask,
which only ever pass strings already known to contain no sign characters:
it succeeds exactly on nonempty all-digit strings whose value fits in
usize, and fails (Err) on an empty string or on overflow. -/
def parseUsize (s : Str) : Option Nat :=
  if s.isEmpty || !(s.all isAsciiDigit) then none
  else if digitsToNat s ≤ USIZE_MAX then some (digitsToNat s) else none

/-- Rust format ( with the 03 width spec ): decimal digits zero-padded on
the left to a width of at least three. -/
def pad3 (n : Nat) : Str :=
  let ds := Nat.toDigits 10 n
  List.replicate (3 - ds.length) (Char.ofNat 48) ++ ds

/-- k concatenated copies of a list, rightmost copy appended last. -/
def repeatList (p : Str) : Nat → Str
  | 0 => []
  | n + 1 => repeatList p n ++ p

/-- The newline character. -/
def lfChar : Char := Char.ofNat 10

/-- The carriage-return character. -/
def crChar : Char := Char.ofNat 13

/-- normalize_pre in main.rs: str::replace of the two-character CRLF
sequence by a single LF, scanning left to right without overlap. -/
def normalize_pre : Str → Str
  | [] => []
  | [c] => [c]
  | c :: c2 :: rest =>
    if c = crChar ∧ c2 = lfChar then lfChar :: normalize_pre rest
    else c :: normalize_pre (c2 :: rest)

/-- ensure_trailing_newline in main.rs: push a newline unless the text
already ends with one. -/
def ensure_trailing_newline (text : Str) : Str :=
  if text.getLast? = some lfChar then text else text ++ [lfChar]

/-- The input-kind / output-kind tag of a sample section (SampleKind in
main.rs). -/
inductive SampleKind : Type
  | input : SampleKind
  | output : SampleKind
deriving DecidableEq, Repr

/-- The four fixed heading markers of classify_heading. -/
def markerSampleIn : Str := "Sample Input".data

/-- English output marker. -/
def markerSampleOut : Str := "Sample Output".data

/-- Japanese input marker. -/
def markerJaIn : Str := "入力例".data

/-- Japanese output marker. -/
def markerJaOut : Str := "出力例".data

/-- classify_heading in main.rs: trim the title, then test the four
markers by substring containment, the two input markers first. -/
def classify_heading (title : Str) : Option SampleKind :=
  let t := trimStr title
  if containsSub t markerSampleIn || containsSub t markerJaIn then
    some SampleKind.input
  else if containsSub t markerSampleOut || containsSub t markerJaOut then
    some SampleKind.output
  else none

/-- The capture of the regex (\d+)(?:\s*)$ on a haystack: the maximal
run of Unicode decimal digits (in the default Unicode mode, \d matches
the general category Nd) standing immediately before the (possibly
empty) trailing whitespace at the end of the string; none when that run
is empty. -/
def extractTrailingDigits (s : Str) : Option Str :=
  let r := s.reverse.dropWhile isRustWhitespace
  let ds := r.takeWhile isUnicodeDigit
  if ds.isEmpty then none else some ds.reverse

/-- The index computation of parse_samples: regex capture, then
parse::<usize>() with unwrap_or(0), then rejection of 0.  Returns none
when the section contributes nothing. -/
def extractedIndex (title : Str) : Option Nat :=
  match extractTrailingDigits title with
  | none => none
  | some ds =>
    let index := (parseUsize ds).getD 0
    if index = 0 then none else some index

/-- The input text and output text of one sample (SamplePair in main.rs). -/
structure SamplePair : Type where
  input : Str
  output : Str
deriving DecidableEq, Repr

/-- One HTML section element as seen by parse_samples: the collected text
of its first h3 child (none when the section has no h3) and the collected
text of its first pre child (none when it has no pre).  The scraper
library itself is an external collaborator; parse_samples only consumes
this shape of data from it, in document order. -/
structure HtmlSection : Type where
  heading : Option Str
  pre : Option Str
deriving DecidableEq, Repr

/-- std::collections::BTreeMap with Nat keys, modelled as an association
list with strictly increasing keys; insert replaces the value on an
existing key. -/
def btreeInsert (k : Nat) (v : α) : List (Nat × α) → List (Nat × α)
  | [] => [(k, v)]
  | (k2, v2) :: rest =>
    if k < k2 then (k, v) :: (k2, v2) :: rest
    else if k = k2 then (k, v) :: rest
    else (k2, v2) :: btreeInsert k v rest

/-- BTreeMap::get, on the association-list model. -/
def btreeGet (k : Nat) (m : List (Nat × α)) : Option α :=
  (m.find? (fun p => p.1 = k)).map (fun p => p.2)

/-- The keys of an association list, in list order. -/
def mapKeys (m : List (Nat × α)) : List Nat :=
  m.map (fun p => p.1)

/-- One iteration of the section loop of parse_samples, updating the
(inputs, outputs) accumulator pair: skip the section unless it has an h3
and a pre and its trimmed title both classifies as a marker and carries a
nonzero trailing index; otherwise insert the trailing-newline-normalized
pre text in the map of the classified kind. -/
def processSection (acc : List (Nat × Str) × List (Nat × Str))
    (sec : HtmlSection) : List (Nat × Str) × List (Nat × Str) :=
  match sec.heading with
  | none => acc
  | some h =>
    let title := trimStr h
    match classify_heading title with
    | none => acc
    | some kind =>
      match sec.pre with
      | none => acc
      | some raw =>
        let content := normalize_pre raw
        match extractedIndex title with
        | none => acc
        | some index =>
          match kind with
          | SampleKind.input =>
            (btreeInsert index (ensure_trailing_newline content) acc.1, acc.2)
          | SampleKind.output =>
            (acc.1, btreeInsert index (ensure_trailing_newline content) acc.2)

/-- The inputs accumulator of parse_samples after the section loop. -/
def inputsMap (sections : List HtmlSection) : List (Nat × Str) :=
  (sections.foldl processSection ([], [])).1

/-- The outputs accumulator of parse_samples after the section loop. -/
def outputsMap (sections : List HtmlSection) : List (Nat × Str) :=
  (sections.foldl processSection ([], [])).2

/-- The final loop of parse_samples: for each index of the inputs map in
ascending order, emit a SamplePair when the outputs map holds the same
index. -/
def combinePairs (inputs outputs : List (Nat × Str)) :
    List (Nat × SamplePair) :=
  inputs.filterMap (fun p =>
    (btreeGet p.1 outputs).map (fun out => (p.1, SamplePair.mk p.2 out)))

/-- parse_samples in main.rs, over the section view of the document. -/
def parse_samples (sections : List HtmlSection) : List (Nat × SamplePair) :=
  combinePairs (inputsMap sections) (outputsMap sections)

/-- A filesystem path, as a directory handle paired with a file name
inside it (Path::join of the xtask always joins a directory and a final
file name). -/
structure RPath : Type where
  dir : Str
  file : Str
deriving DecidableEq, Repr

/-- The fixed file-name suffixes of the xtask. -/
def dotIn : Str := ".in".data

/-- Suffix of sample-output file names. -/
def dotOut : Str := ".out".data

/-- candidate_inputs in main.rs: the literal candidate first, then, when
every character of the token is an ASCII digit and the token parses as a
usize, the zero-padded three-digit candidate. -/
def candidate_inputs (dir : Str) (case0 : Str) : List RPath :=
  let paths := [RPath.mk dir (case0 ++ dotIn)]
  if case0.all isAsciiDigit then
    match parseUsize case0 with
    | some value => paths ++ [RPath.mk dir (pad3 value ++ dotIn)]
    | none => paths
  else paths

/-- The single-quote character, used by the not-found error message. -/
def sqChar : Char := Char.ofNat 39

/-- The message of the resolution error of run_case, naming the original
token and the search directory. -/
def notFoundMsg (case0 dir : Str) : Str :=
  "input for case ".data ++ [sqChar] ++ case0 ++ [sqChar] ++
    " not found in ".data ++ dir

/-- The candidate-probing step of run_case: the first candidate that
exists on disk wins; when none exists the command fails with the
not-found message.  The filesystem is abstracted as an existence
predicate on paths. -/
def resolveInput (exists0 : RPath → Bool) (dir case0 : Str) :
    Except Str RPath :=
  match (candidate_inputs dir case0).find? (fun p => exists0 p) with
  | some p => Except.ok p
  | none => Except.error (notFoundMsg case0 dir)

/-- The fixed test-binary suffix of run_tests. -/
def underscoreTest : Str := "_test".data

/-- The fixed test-filter suffix of run_tests. -/
def allCasesSuffix : Str := "_all_cases".data

/-- The loop of Rust str::trim_end_matches, fuelled: while the (nonempty)
pattern is a suffix, cut it off.  One unit of fuel per removed copy; each
removal shortens the string, so length fuel always suffices. -/
def trimEndLoop (fuel : Nat) (s pat : Str) : Str :=
  match fuel with
  | 0 => s
  | fuel + 1 =>
    if pat ≠ [] ∧ endsWithList s pat = true then
      trimEndLoop fuel (s.take (s.length - pat.length)) pat
    else s

/-- Rust str::trim_end_matches with a string pattern: repeatedly remove
the pattern from the end while it is a suffix. -/
def trimEndMatches (s pat : Str) : Str :=
  trimEndLoop s.length s pat

/-- The (test binary name, task slug, filter name) triple run_tests
derives from a target. -/
structure TestScope : Type where
  test_name : Str
  task_slug : Str
  filter_name : Str
deriving DecidableEq, Repr

/-- The target-normalization step of run_tests in main.rs: lowercase the
target; when it ends with the test suffix keep it as the binary name and
take trim_end_matches of the suffix as the slug, otherwise append the
suffix for the binary name and keep the input as the slug; the filter is
always the slug followed by the all-cases suffix. -/
def normalizeTarget (target : Str) : TestScope :=
  let normalized := target.map toAsciiLower
  if endsWithList normalized underscoreTest = true then
    TestScope.mk normalized (trimEndMatches normalized underscoreTest)
      (trimEndMatches normalized underscoreTest ++ allCasesSuffix)
  else
    TestScope.mk (normalized ++ underscoreTest) normalized
      (normalized ++ allCasesSuffix)

/-- One whole-file write performed by fetch_samples. -/
structure FileWrite : Type where
  path : RPath
  content : Str
deriving DecidableEq, Repr

/-- The error message of fetch_samples when the page has no samples. -/
def noSamplesMsg : Str := "no samples found on the page".data

/-- The body of the write loop of fetch_samples for one sample pair:
skip both files when overwrite is unset and both already exist,
otherwise write both. -/
def writePair (overwrite : Bool) (exists0 : RPath → Bool) (dir : Str)
    (entry : Nat × SamplePair) : List FileWrite :=
  let stem := pad3 entry.1
  let inputPath := RPath.mk dir (stem ++ dotIn)
  let outputPath := RPath.mk dir (stem ++ dotOut)
  if overwrite = false ∧ exists0 inputPath = true ∧ exists0 outputPath = true
  then []
  else [FileWrite.mk inputPath entry.2.input,
        FileWrite.mk outputPath entry.2.output]

/-- fetch_samples in main.rs after the HTTP transport: parse the
document, fail when no complete pair was found, otherwise write each
pair in collection order under the task directory.  The filesystem is
abstracted as an existence predicate; the returned list records the
writes in the order they are performed. -/
def fetch_samples (sections : List HtmlSection) (overwrite : Bool)
    (exists0 : RPath → Bool) (dir : Str) : Except Str (List FileWrite) :=
  let samples := parse_samples sections
  if samples.isEmpty then Except.error noSamplesMsg
  else Except.ok ((samples.map (writePair overwrite exists0 dir)).flatten)

/-- The files written by a fetch outcome: none when it failed. -/
def writesOf : Except Str (List FileWrite) → List FileWrite
  | Except.error _ => []
  | Except.ok ws => ws

/-- The classification data of one section, factored out of
processSection: the kind, index and normalized text it inserts, or none
when the section is skipped. -/
def sectionEntry (sec : HtmlSection) : Option (SampleKind × Nat × Str) :=
  match sec.heading with
  | none => none
  | some h =>
    let title := trimStr h
    match classify_heading title with
    | none => none
    | some kind =>
      match sec.pre with
      | none => none
      | some raw =>
        match extractedIndex title with
        | none => none
        | some index =>
          some (kind, index, ensure_trailing_newline (normalize_pre raw))

/-- The value the accumulation of parse_samples leaves at one key: a
left fold that keeps the value of the latest matching section, so a
later occurrence in document order overwrites an earlier one. -/
def lastEntryValue (kind : SampleKind) (i : Nat)
    (sections : List HtmlSection) : Option Str :=
  sections.foldl
    (fun cur sec =>
      match sectionEntry sec with
      | some e => if e.1 = kind ∧ e.2.1 = i then some e.2.2 else cur
      | none => cur)
    none

/-- The slug described by the specification sentence: the lowercased
input with one copy of the test suffix stripped from the end when
present. -/
def specSlugOnce (normalized : Str) : Str :=
  if endsWithList normalized underscoreTest = true then
    normalized.take (normalized.length - underscoreTest.length)
  else normalized

/-- The sample index described by the specification sentence: the value
of the rightmost trailing digit run with no magnitude restriction, zero
rejected.  Its digit reading (digitsToNat) matches the claim on runs of
ASCII digits, where the closed counterexample instantiates it. -/
def specTrailingIndex (title : Str) : Option Nat :=
  match extractTrailingDigits title with
  | none => none
  | some ds => if digitsToNat ds = 0 then none else some (digitsToNat ds)

/-- The candidate list described by the specification sentence: the
zero-padded form is added exactly when the token consists of decimal
digits. -/
def specCandidates (dir case0 : Str) : List RPath :=
  if case0.all isAsciiDigit then
    [RPath.mk dir (case0 ++ dotIn),
     RPath.mk dir (pad3 (digitsToNat case0) ++ dotIn)]
  else [RPath.mk dir (case0 ++ dotIn)]

/-- Concrete directory used by the closed theorems below. -/
def exDirD : Str := "D".data

/-- Concrete numeric case token. -/
def exTok42 : Str := "42".data

/-- Concrete all-digit token whose value is 2^64, one past usize::MAX. -/
def exBigTok : Str := "18446744073709551616".data

/-- Concrete target string b. -/
def exB : Str := "b".data

/-- Concrete target string b_test. -/
def exBTest : Str := "b_test".data

/-- Concrete target string b_test_test. -/
def exBTestTest : Str := "b_test_test".data

/-- Concrete sample-input heading with index 1. -/
def exHeadingIn1 : Str := "Sample Input 1".data

/-- Concrete sample-output heading with index 1. -/
def exHeadingOut1 : Str := "Sample Output 1".data

/-- Concrete heading holding both an input and an output marker. -/
def exHeadingBoth : Str := "Sample Input and Sample Output 2".data

/-- Concrete heading whose trailing digit run is 2^64, one past
usize::MAX. -/
def exBigHeading : Str := "Sample Input 18446744073709551616".data

/-- Concrete non-sample heading. -/
def exHeadingNotes : Str := "Notes".data

/-- Concrete preformatted text ending in two linefeeds. -/
def exPre3LF2 : Str := "3\n\n".data

/-- Concrete preformatted text with no trailing linefeed. -/
def exPre9 : Str := "9".data

/-- Concrete section with an input marker and a double-linefeed pre. -/
def exSecIn1 : HtmlSection := HtmlSection.mk (some exHeadingIn1) (some exPre3LF2)

/-- Concrete section with an output marker. -/
def exSecOut1 : HtmlSection := HtmlSection.mk (some exHeadingOut1) (some exPre9)

/-- Concrete section with a non-sample heading. -/
def exSecNotes : HtmlSection := HtmlSection.mk (some exHeadingNotes) (some exPre9)

/-- Concrete two-section document with one complete sample pair. -/
def exC1Sections : List HtmlSection := [exSecIn1, exSecOut1]

/-- Concrete document with only a non-sample preformatted block. -/
def exNoSampleSections : List HtmlSection := [exSecNotes]

/-- The text returned by ensure_trailing_newline always ends with a
linefeed. -/
theorem ensure_getLast (t : Str) :
    (ensure_trailing_newline t).getLast? = some lfChar := by
  unfold ensure_trailing_newline
  split
  · assumption
  · exact List.getLast?_concat t

/-- Looking up in the empty map model. -/
theorem btreeGet_nil {α : Type} (i : Nat) :
    btreeGet i ([] : List (Nat × α)) = none := rfl

/-- Lookup on a cons cell of the map model. -/
theorem btreeGet_cons {α : Type} (p : Nat × α) (m : List (Nat × α)) (i : Nat) :
    btreeGet i (p :: m) = if p.1 = i then some p.2 else btreeGet i m := by
  by_cases h : p.1 = i <;>
    simp [btreeGet, List.find?_cons_of_pos, List.find?_cons_of_neg, h]

/-- Lookup after insert: the inserted key now maps to the inserted value,
every other key is untouched. -/
theorem btreeGet_insert {α : Type} (k : Nat) (v : α) (m : List (Nat × α))
    (i : Nat) :
    btreeGet i (btreeInsert k v m) = if k = i then some v else btreeGet i m := by
  induction m with
  | nil => simp [btreeInsert, btreeGet_cons, btreeGet_nil]
  | cons q rest ih =>
    obtain ⟨k2, v2⟩ := q
    unfold btreeInsert
    by_cases h1 : k < k2
    · simp [h1, btreeGet_cons]
    · by_cases h2 : k = k2
      · subst h2
        rw [if_neg h1, if_pos rfl, btreeGet_cons, btreeGet_cons]
        by_cases h3 : k = i
        · simp [h3]
        · simp [h3]
      · simp only [if_neg h1, if_neg h2]
        rw [btreeGet_cons, btreeGet_cons, ih]
        by_cases h3 : k2 = i
        · subst h3
          simp [h2]
        · simp [h3]

/-- Every entry of the map after an insert is the inserted pair or an
old entry. -/
theorem mem_btreeInsert {α : Type} {k : Nat} {v : α} {m : List (Nat × α)}
    {p : Nat × α} (h : p ∈ btreeInsert k v m) : p = (k, v) ∨ p ∈ m := by
  induction m with
  | nil => simpa [btreeInsert] using h
  | cons q rest ih =>
    obtain ⟨k2, v2⟩ := q
    unfold btreeInsert at h
    split at h
    · simpa using h
    · split at h
      · rcases List.mem_cons.mp h with h | h
        · exact Or.inl h
        · exact Or.inr (List.mem_cons_of_mem _ h)
      · rcases List.mem_cons.mp h with h | h
        · exact Or.inr (h ▸ List.mem_cons_self _ _)
        · rcases ih h with h | h
          · exact Or.inl h
          · exact Or.inr (List.mem_cons_of_mem _ h)

/-- Every key of the map after an insert is the inserted key or an old
key. -/
theorem mem_mapKeys_btreeInsert {α : Type} {k : Nat} {v : α}
    {m : List (Nat × α)} {j : Nat}
    (h : j ∈ mapKeys (btreeInsert k v m)) : j = k ∨ j ∈ mapKeys m := by
  unfold mapKeys at *
  rcases List.mem_map.mp h with ⟨p, hp, rfl⟩
  rcases mem_btreeInsert hp with rfl | hpm
  · exact Or.inl rfl
  · exact Or.inr (List.mem_map_of_mem _ hpm)

/-- btreeInsert keeps the keys strictly increasing. -/
theorem pairwise_mapKeys_btreeInsert {α : Type} (k : Nat) (v : α)
    {m : List (Nat × α)} (h : (mapKeys m).Pairwise (· < ·)) :
    (mapKeys (btreeInsert k v m)).Pairwise (· < ·) := by
  induction m with
  | nil => simp [btreeInsert, mapKeys]
  | cons q rest ih =>
    obtain ⟨k2, v2⟩ := q
    simp only [mapKeys, List.map_cons, List.pairwise_cons] at h
    obtain ⟨hhead, htail⟩ := h
    unfold btreeInsert
    by_cases h1 : k < k2
    · simp only [if_pos h1, mapKeys, List.map_cons, List.pairwise_cons]
      refine ⟨?_, ?_, htail⟩
      · intro j hj
        rcases List.mem_cons.mp hj with rfl | hj2
        · exact h1
        · exact h1.trans (hhead j hj2)
      · intro j hj
        exact hhead j hj
    · by_cases h2 : k = k2
      · subst h2
        rw [if_neg h1, if_pos rfl]
        simp only [mapKeys, List.map_cons, List.pairwise_cons]
        exact ⟨hhead, htail⟩
      · simp only [if_neg h1, if_neg h2, mapKeys, List.map_cons,
          List.pairwise_cons]
        have hlt : k2 < k := by omega
        refine ⟨?_, ih htail⟩
        intro j hj
        rcases mem_mapKeys_btreeInsert (by simpa [mapKeys] using hj) with
          rfl | hjm
        · exact hlt
        · exact hhead j (by simpa [mapKeys] using hjm)

/-- processSection is the insert dictated by sectionEntry. -/
theorem processSection_eq (acc : List (Nat × Str) × List (Nat × Str))
    (sec : HtmlSection) :
    processSection acc sec =
      match sectionEntry sec with
      | none => acc
      | some (SampleKind.input, i, v) => (btreeInsert i v acc.1, acc.2)
      | some (SampleKind.output, i, v) => (acc.1, btreeInsert i v acc.2) := by
  obtain ⟨hOpt, pOpt⟩ := sec
  cases hOpt with
  | none => rfl
  | some hd =>
    cases hk : classify_heading (trimStr hd) with
    | none => simp [processSection, sectionEntry, hk]
    | some kind =>
      cases pOpt with
      | none => simp [processSection, sectionEntry, hk]
      | some raw =>
        cases hi : extractedIndex (trimStr hd) with
        | none => simp [processSection, sectionEntry, hk, hi]
        | some i => cases kind <;> simp [processSection, sectionEntry, hk, hi]

/-- An invariant preserved by every step survives the whole section
loop. -/
theorem foldl_processSection_invariant
    {P : List (Nat × Str) × List (Nat × Str) → Prop}
    (hstep : ∀ acc sec, P acc → P (processSection acc sec)) :
    ∀ (sections : List HtmlSection)
      (acc : List (Nat × Str) × List (Nat × Str)),
      P acc → P (sections.foldl processSection acc)
  | [], _, h => h
  | sec :: rest, acc, h =>
    foldl_processSection_invariant hstep rest _ (hstep acc sec h)

/-- Both accumulators keep strictly increasing keys through the section
loop. -/
theorem foldl_processSection_pairwise (sections : List HtmlSection)
    (acc : List (Nat × Str) × List (Nat × Str))
    (h1 : (mapKeys acc.1).Pairwise (· < ·))
    (h2 : (mapKeys acc.2).Pairwise (· < ·)) :
    (mapKeys (sections.foldl processSection acc).1).Pairwise (· < ·) ∧
    (mapKeys (sections.foldl processSection acc).2).Pairwise (· < ·) := by
  refine foldl_processSection_invariant
    (P := fun acc => (mapKeys acc.1).Pairwise (· < ·) ∧
      (mapKeys acc.2).Pairwise (· < ·)) ?_ sections acc ⟨h1, h2⟩
  intro a sec hp
  rw [processSection_eq]
  cases he : sectionEntry sec with
  | none => exact hp
  | some e =>
    obtain ⟨kind, i, v⟩ := e
    cases kind
    · exact ⟨pairwise_mapKeys_btreeInsert i v hp.1, hp.2⟩
    · exact ⟨hp.1, pairwise_mapKeys_btreeInsert i v hp.2⟩

/-- Every value either accumulator holds through the section loop ends
with a linefeed. -/
theorem foldl_processSection_values (sections : List HtmlSection)
    (acc : List (Nat × Str) × List (Nat × Str))
    (h1 : ∀ p ∈ acc.1, (p : Nat × Str).2.getLast? = some lfChar)
    (h2 : ∀ p ∈ acc.2, (p : Nat × Str).2.getLast? = some lfChar) :
    (∀ p ∈ (sections.foldl processSection acc).1,
      (p : Nat × Str).2.getLast? = some lfChar) ∧
    (∀ p ∈ (sections.foldl processSection acc).2,
      (p : Nat × Str).2.getLast? = some lfChar) := by
  refine foldl_processSection_invariant
    (P := fun acc => (∀ p ∈ acc.1, (p : Nat × Str).2.getLast? = some lfChar) ∧
      ∀ p ∈ acc.2, (p : Nat × Str).2.getLast? = some lfChar) ?_ sections acc
    ⟨h1, h2⟩
  intro a sec hp
  rw [processSection_eq]
  cases he : sectionEntry sec with
  | none => exact hp
  | some e =>
    obtain ⟨kind, i, v⟩ := e
    have hv : v.getLast? = some lfChar := by
      unfold sectionEntry at he
      rcases sec with ⟨hOpt, pOpt⟩
      cases hOpt with
      | none => simp at he
      | some hd =>
        cases hk : classify_heading (trimStr hd) with
        | none => simp [hk] at he
        | some kind2 =>
          cases pOpt with
          | none => simp [hk] at he
          | some raw =>
            cases hi : extractedIndex (trimStr hd) with
            | none => simp [hk, hi] at he
            | some j =>
              simp only [hk, hi] at he
              cases he
              exact ensure_getLast _
    cases kind
    · refine ⟨?_, hp.2⟩
      intro p hpmem
      rcases mem_btreeInsert hpmem with rfl | hpold
      · exact hv
      · exact hp.1 p hpold
    · refine ⟨hp.1, ?_⟩
      intro p hpmem
      rcases mem_btreeInsert hpmem with rfl | hpold
      · exact hv
      · exact hp.2 p hpold

/-- A key outside the key list looks up to none. -/
theorem btreeGet_eq_none_of_not_mem {α : Type} {m : List (Nat × α)} {i : Nat}
    (h : i ∉ mapKeys m) : btreeGet i m = none := by
  unfold btreeGet
  rw [List.find?_eq_none.mpr]
  · rfl
  · intro p hp hpi
    have h1 : p.1 ∈ m.map (fun p => p.1) := List.mem_map_of_mem _ hp
    have h2 : p.1 = i := of_decide_eq_true hpi
    exact h (by simpa [mapKeys, h2] using h1)

/-- The keys of the pairing loop form a sublist of the input keys. -/
theorem mapKeys_combinePairs_sublist (ins outs : List (Nat × Str)) :
    (mapKeys (combinePairs ins outs)).Sublist (mapKeys ins) := by
  induction ins with
  | nil => simp [combinePairs, mapKeys]
  | cons q rest ih =>
    unfold combinePairs at *
    cases h : btreeGet q.1 outs with
    | none =>
      simp only [List.filterMap_cons, h, Option.map_none']
      exact List.Sublist.cons _ ih
    | some out =>
      simp only [List.filterMap_cons, h, Option.map_some']
      simp only [mapKeys, List.map_cons]
      exact List.Sublist.cons₂ _ ih

/-- Lookup in the pairing result, assuming the input keys are distinct:
present exactly when both maps hold the key, pairing the two texts. -/
theorem btreeGet_combinePairs (ins outs : List (Nat × Str))
    (h : (mapKeys ins).Nodup) (i : Nat) :
    btreeGet i (combinePairs ins outs) =
      match btreeGet i ins, btreeGet i outs with
      | some a, some b => some (SamplePair.mk a b)
      | some _, none => none
      | none, _ => none := by
  induction ins with
  | nil => simp [combinePairs, btreeGet_nil]
  | cons q rest ih =>
    obtain ⟨k, v⟩ := q
    simp only [mapKeys, List.map_cons, List.nodup_cons] at h
    obtain ⟨hknotin, hnodup⟩ := h
    unfold combinePairs
    by_cases hk : k = i
    · subst hk
      rw [btreeGet_cons]
      simp only [if_pos]
      cases ho : btreeGet k outs with
      | none =>
        simp only [List.filterMap_cons, ho, Option.map_none']
        have hnone : btreeGet k (combinePairs rest outs) = none := by
          apply btreeGet_eq_none_of_not_mem
          intro hmem
          exact hknotin
            (by simpa [mapKeys] using
              (mapKeys_combinePairs_sublist rest outs).mem hmem)
        simpa [combinePairs] using hnone
      | some b =>
        simp only [List.filterMap_cons, ho, Option.map_some']
        rw [btreeGet_cons]
        simp
    · rw [btreeGet_cons]
      simp only [if_neg hk]
      cases ho : btreeGet k outs with
      | none =>
        simp only [List.filterMap_cons, ho, Option.map_none']
        exact ih hnodup
      | some b =>
        simp only [List.filterMap_cons, ho, Option.map_some']
        rw [btreeGet_cons]
        simp only [if_neg hk]
        exact ih hnodup

/-- Unpacking membership in the pairing result: the input text comes
from the inputs map and the output text from the outputs map, at the
same index. -/
theorem mem_combinePairs {ins outs : List (Nat × Str)} {i : Nat}
    {p : SamplePair} (h : (i, p) ∈ combinePairs ins outs) :
    (i, p.input) ∈ ins ∧ btreeGet i outs = some p.output := by
  unfold combinePairs at h
  rcases List.mem_filterMap.mp h with ⟨q, hq, hmap⟩
  rcases Option.map_eq_some'.mp hmap with ⟨out, hout, heq⟩
  cases heq
  exact ⟨hq, hout⟩

/-- No Nd range meets any White_Space code point. -/
theorem ndRanges_ws_disjoint :
    ndRanges.all (fun r =>
      (([9, 10, 11, 12, 13, 32, 133, 160, 5760, 8192, 8193, 8194, 8195,
         8196, 8197, 8198, 8199, 8200, 8201, 8202, 8232, 8233, 8239, 8287,
         12288] : List Nat).all
        (fun w => decide (w < r.1 ∨ r.2 < w)))) = true := by decide

/-- A Unicode decimal digit never has the White_Space property. -/
theorem not_whitespace_of_ndDigit {c : Char} (h : isUnicodeDigit c = true) :
    isRustWhitespace c = false := by
  unfold isUnicodeDigit at h
  rw [List.any_eq_true] at h
  obtain ⟨r, hr, hb⟩ := h
  simp only [Bool.and_eq_true, decide_eq_true_eq] at hb
  rw [Bool.eq_false_iff]
  intro htrue
  unfold isRustWhitespace at htrue
  rcases List.contains_iff_exists_mem_beq.mp htrue with ⟨b, hbmem, hbeq⟩
  have hcb : c.toNat = b := by simpa using hbeq
  have hd := List.all_eq_true.mp ndRanges_ws_disjoint r hr
  have hd2 : (([9, 10, 11, 12, 13, 32, 133, 160, 5760, 8192, 8193, 8194,
      8195, 8196, 8197, 8198, 8199, 8200, 8201, 8202, 8232, 8233, 8239,
      8287, 12288] : List Nat).all
      (fun w => decide (w < r.1 ∨ r.2 < w))) = true := hd
  have hw := List.all_eq_true.mp hd2 b hbmem
  have hw2 : decide (b < r.1 ∨ r.2 < b) = true := hw
  have hwb : b < r.1 ∨ r.2 < b := of_decide_eq_true hw2
  omega

/-- parseUsize on a nonempty digit string: the value when it fits in
usize, failure on overflow. -/
theorem parseUsize_of_digits {ds : Str} (hne : ds ≠ [])
    (hall : ds.all isAsciiDigit = true) :
    parseUsize ds =
      if digitsToNat ds ≤ USIZE_MAX then some (digitsToNat ds) else none := by
  have hcond : (ds.isEmpty || !(ds.all isAsciiDigit)) = false := by
    simp [List.isEmpty_iff, hne, hall]
  unfold parseUsize
  simp [hcond]

/-- parse fails when the string holds any character that is not an
ASCII digit: parse::<usize>() accepts only ASCII digits even when the
regex captured other Unicode decimal digits. -/
theorem parseUsize_not_ascii {ds : Str} (h : ds.all isAsciiDigit = false) :
    parseUsize ds = none := by
  unfold parseUsize
  rw [if_pos (by simp [h])]

/-- When the trailing-run regex matches, the haystack splits as
prefix ++ digits ++ whitespace, with the Unicode-digit run nonempty,
maximal (the prefix does not end in a Unicode digit) and standing
immediately before the trailing whitespace. -/
theorem extractTrailingDigits_some {s ds : Str}
    (h : extractTrailingDigits s = some ds) :
    ds ≠ [] ∧ ds.all isUnicodeDigit = true ∧
    ∃ pre ws, s = pre ++ ds ++ ws ∧ ws.all isRustWhitespace = true ∧
      ∀ c, pre.getLast? = some c → isUnicodeDigit c = false := by
  simp only [extractTrailingDigits] at h
  by_cases he :
      ((s.reverse.dropWhile isRustWhitespace).takeWhile isUnicodeDigit).isEmpty
  · simp [he] at h
  · simp only [he, Bool.false_eq_true, if_false, Option.some.injEq] at h
    subst h
    set r := s.reverse.dropWhile isRustWhitespace with hr
    set ds0 := r.takeWhile isUnicodeDigit with hds0
    have hds0ne : ds0 ≠ [] := by
      intro hnil
      exact he (by simp [hnil])
    refine ⟨by simpa using hds0ne, ?_, ?_⟩
    · rw [List.all_reverse]
      exact List.all_takeWhile
    · refine ⟨(r.dropWhile isUnicodeDigit).reverse,
        (s.reverse.takeWhile isRustWhitespace).reverse, ?_, ?_, ?_⟩
      · have hsrev : s.reverse =
            s.reverse.takeWhile isRustWhitespace ++ (ds0 ++ r.dropWhile isUnicodeDigit) := by
          rw [hds0, List.takeWhile_append_dropWhile, hr,
            List.takeWhile_append_dropWhile]
        have h2 := congrArg List.reverse hsrev
        rw [List.reverse_reverse, List.reverse_append, List.reverse_append]
          at h2
        simpa [List.append_assoc] using h2
      · rw [List.all_reverse]
        exact List.all_takeWhile
      · intro c hc
        rw [List.getLast?_reverse] at hc
        have := List.head?_dropWhile_not isUnicodeDigit r
        rw [hc] at this
        exact this

/-- When the trailing-run regex fails, the haystack has no nonempty
digit run standing immediately before trailing whitespace. -/
theorem extractTrailingDigits_none {s : Str}
    (h : extractTrailingDigits s = none) :
    ∀ pre ds ws, s = pre ++ ds ++ ws → ds.all isUnicodeDigit = true →
      ws.all isRustWhitespace = true → ds = [] := by
  intro pre ds ws hs hds hws
  by_contra hne
  simp only [extractTrailingDigits] at h
  have hempty :
      ((s.reverse.dropWhile isRustWhitespace).takeWhile isUnicodeDigit).isEmpty
        = true := by
    by_contra hne2
    simp [hne2] at h
  obtain ⟨c, t, hct⟩ : ∃ c t, ds.reverse = c :: t := by
    cases hrev : ds.reverse with
    | nil => exact absurd (by simpa using congrArg List.reverse hrev) hne
    | cons c t => exact ⟨c, t, rfl⟩
  have hcdigit : isUnicodeDigit c = true := by
    have hcmem : c ∈ ds := by
      rw [← List.mem_reverse, hct]
      exact List.mem_cons_self _ _
    exact List.all_eq_true.mp hds c hcmem
  have hsrev : s.reverse = ws.reverse ++ (c :: (t ++ pre.reverse)) := by
    rw [hs, List.reverse_append, List.reverse_append, hct]
    simp
  rw [hsrev, List.dropWhile_append_of_pos (by
      intro a ha
      exact List.all_eq_true.mp hws a (List.mem_reverse.mp ha))] at hempty
  rw [List.dropWhile_cons, if_neg (by
      rw [not_whitespace_of_ndDigit hcdigit]
      simp)] at hempty
  rw [List.takeWhile_cons, if_pos (by rw [hcdigit])] at hempty
  simp at hempty

/-- ends_with as an append decomposition. -/
theorem endsWithList_iff {s pat : Str} :
    endsWithList s pat = true ↔ ∃ a, s = a ++ pat := by
  unfold endsWithList
  rw [List.isPrefixOf_iff_prefix, List.reverse_prefix]
  constructor
  · rintro ⟨a, ha⟩
    exact ⟨a, ha.symm⟩
  · rintro ⟨a, rfl⟩
    exact ⟨a, rfl⟩

/-- The trim loop with enough fuel leaves a string that no longer ends
with the pattern, and the input is the result followed by finitely many
copies of the pattern. -/
theorem trimEndLoop_spec (pat : Str) (hp : pat ≠ []) :
    ∀ (fuel : Nat) (s : Str), s.length ≤ fuel →
      endsWithList (trimEndLoop fuel s pat) pat = false ∧
      ∃ k, s = trimEndLoop fuel s pat ++ repeatList pat k := by
  intro fuel
  induction fuel with
  | zero =>
    intro s hle
    have hs : s = [] := List.eq_nil_of_length_eq_zero (Nat.le_zero.mp hle)
    subst hs
    simp only [trimEndLoop]
    refine ⟨?_, 0, by simp [repeatList]⟩
    rw [Bool.eq_false_iff]
    intro htrue
    rcases endsWithList_iff.mp htrue with ⟨a, ha⟩
    apply hp
    cases a with
    | nil => simpa using ha.symm
    | cons x xs => simp at ha
  | succ n ih =>
    intro s hle
    unfold trimEndLoop
    by_cases hcond : pat ≠ [] ∧ endsWithList s pat = true
    · rw [if_pos hcond]
      rcases endsWithList_iff.mp hcond.2 with ⟨a, rfl⟩
      have hlen : (a ++ pat).length - pat.length = a.length := by
        simp [List.length_append]
      have htake : (a ++ pat).take ((a ++ pat).length - pat.length) = a := by
        rw [hlen]
        exact List.take_left a pat
      rw [htake]
      have hle2 : a.length ≤ n := by
        have hpatpos : 0 < pat.length := List.length_pos.mpr hp
        rw [List.length_append] at hle
        omega
      obtain ⟨hends, k, hk⟩ := ih a hle2
      refine ⟨hends, k + 1, ?_⟩
      simp only [repeatList]
      calc a ++ pat = (trimEndLoop n a pat ++ repeatList pat k) ++ pat := by
            rw [← hk]
        _ = trimEndLoop n a pat ++ (repeatList pat k ++ pat) := by
            rw [List.append_assoc]
    · rw [if_neg hcond]
      push_neg at hcond
      exact ⟨Bool.eq_false_iff.mpr (hcond hp), 0, by simp [repeatList]⟩

/-- trim_end_matches with a nonempty pattern: the result does not end
with the pattern and the input is the result plus finitely many pattern
copies. -/
theorem trimEndMatches_spec (s pat : Str) (hp : pat ≠ []) :
    endsWithList (trimEndMatches s pat) pat = false ∧
    ∃ k, s = trimEndMatches s pat ++ repeatList pat k :=
  trimEndLoop_spec pat hp s.length s Nat.le.refl

/-- A string starting with the pattern contains it. -/
theorem containsSub_of_isPrefixOf {s pat : Str}
    (h : pat.isPrefixOf s = true) : containsSub s pat = true := by
  cases s with
  | nil => simp [containsSub, h]
  | cons c t => simp [containsSub, h]

/-- Containment survives prepending a character. -/
theorem containsSub_cons {c : Char} {s pat : Str}
    (h : containsSub s pat = true) : containsSub (c :: s) pat = true := by
  simp [containsSub, h]

/-- Containment survives prepending any list. -/
theorem containsSub_append_left (a : Str) {s pat : Str}
    (h : containsSub s pat = true) : containsSub (a ++ s) pat = true := by
  induction a with
  | nil => simpa
  | cons c t ih => simpa using containsSub_cons ih

/-- A list contains its own prefix. -/
theorem containsSub_self_append (pat rest : Str) :
    containsSub (pat ++ rest) pat = true :=
  containsSub_of_isPrefixOf (List.isPrefixOf_iff_prefix.mpr ⟨rest, rfl⟩)

/-- Both accumulators of the section loop keep strictly increasing
keys, starting from the empty maps. -/
theorem pairwise_inputsMap (sections : List HtmlSection) :
    (mapKeys (inputsMap sections)).Pairwise (· < ·) :=
  (foldl_processSection_pairwise sections ([], [])
    (by simp [mapKeys]) (by simp [mapKeys])).1

/-- The outputs accumulator also keeps strictly increasing keys. -/
theorem pairwise_outputsMap (sections : List HtmlSection) :
    (mapKeys (outputsMap sections)).Pairwise (· < ·) :=
  (foldl_processSection_pairwise sections ([], [])
    (by simp [mapKeys]) (by simp [mapKeys])).2

/-- The keys of the inputs accumulator are distinct. -/
theorem nodup_mapKeys_inputsMap (sections : List HtmlSection) :
    (mapKeys (inputsMap sections)).Nodup :=
  (pairwise_inputsMap sections).imp (fun h => Nat.ne_of_lt h)

/-- Lookup in either accumulator after the section loop equals a left
fold that keeps the value of the latest matching section. -/
theorem foldl_processSection_btreeGet (i : Nat) :
    ∀ (sections : List HtmlSection)
      (acc : List (Nat × Str) × List (Nat × Str)),
      btreeGet i ((sections.foldl processSection acc).1) =
        sections.foldl (fun cur sec =>
          match sectionEntry sec with
          | some e => if e.1 = SampleKind.input ∧ e.2.1 = i then some e.2.2
                      else cur
          | none => cur) (btreeGet i acc.1) ∧
      btreeGet i ((sections.foldl processSection acc).2) =
        sections.foldl (fun cur sec =>
          match sectionEntry sec with
          | some e => if e.1 = SampleKind.output ∧ e.2.1 = i then some e.2.2
                      else cur
          | none => cur) (btreeGet i acc.2)
  | [], acc => ⟨rfl, rfl⟩
  | sec :: rest, acc => by
    have ih := foldl_processSection_btreeGet i rest (processSection acc sec)
    simp only [List.foldl_cons]
    have hstep1 : btreeGet i ((processSection acc sec).1) =
        (match sectionEntry sec with
          | some e => if e.1 = SampleKind.input ∧ e.2.1 = i then some e.2.2
                      else btreeGet i acc.1
          | none => btreeGet i acc.1) := by
      rw [processSection_eq]
      cases he : sectionEntry sec with
      | none => rfl
      | some e =>
        obtain ⟨kind, j, v⟩ := e
        cases kind
        · show btreeGet i (btreeInsert j v acc.1) = _
          rw [btreeGet_insert]
          by_cases hj : j = i
          · subst hj
            simp
          · simp [hj]
        · simp
    have hstep2 : btreeGet i ((processSection acc sec).2) =
        (match sectionEntry sec with
          | some e => if e.1 = SampleKind.output ∧ e.2.1 = i then some e.2.2
                      else btreeGet i acc.2
          | none => btreeGet i acc.2) := by
      rw [processSection_eq]
      cases he : sectionEntry sec with
      | none => rfl
      | some e =>
        obtain ⟨kind, j, v⟩ := e
        cases kind
        · simp
        · show btreeGet i (btreeInsert j v acc.2) = _
          rw [btreeGet_insert]
          by_cases hj : j = i
          · subst hj
            simp
          · simp [hj]
    exact ⟨by rw [ih.1, hstep1], by rw [ih.2, hstep2]⟩

/-- Lookup in the final inputs accumulator is the latest matching
input-section value. -/
theorem inputsMap_lastEntry (sections : List HtmlSection) (i : Nat) :
    btreeGet i (inputsMap sections) =
      lastEntryValue SampleKind.input i sections := by
  have h := (foldl_processSection_btreeGet i sections ([], [])).1
  simpa [inputsMap, lastEntryValue, btreeGet_nil] using h

/-- Lookup in the final outputs accumulator is the latest matching
output-section value. -/
theorem outputsMap_lastEntry (sections : List HtmlSection) (i : Nat) :
    btreeGet i (outputsMap sections) =
      lastEntryValue SampleKind.output i sections := by
  have h := (foldl_processSection_btreeGet i sections ([], [])).2
  simpa [outputsMap, lastEntryValue, btreeGet_nil] using h

/-- A successful lookup means the pair is in the list. -/
theorem mem_of_btreeGet {α : Type} {m : List (Nat × α)} {i : Nat} {v : α}
    (h : btreeGet i m = some v) : (i, v) ∈ m := by
  unfold btreeGet at h
  rcases Option.map_eq_some'.mp h with ⟨q, hq, hv⟩
  have hmem := List.mem_of_find?_eq_some hq
  have hpi0 := @List.find?_some (Nat × α) (fun r => decide (r.1 = i)) q m hq
  have hpi : q.1 = i := of_decide_eq_true (by simpa using hpi0)
  have hpv : q = (i, v) := Prod.ext_iff.mpr ⟨hpi, hv⟩
  exact hpv ▸ hmem

/-- parse only succeeds on all-digit strings. -/
theorem parseUsize_some_all {t : Str} {v : Nat} (h : parseUsize t = some v) :
    t.all isAsciiDigit = true := by
  by_cases ha : t.all isAsciiDigit = true
  · exact ha
  · exfalso
    rw [Bool.not_eq_true] at ha
    have hcond : (t.isEmpty || !(t.all isAsciiDigit)) = true := by simp [ha]
    unfold parseUsize at h
    rw [if_pos hcond] at h
    exact Option.noConfusion h

/-- C9: trailing-newline normalization is idempotent: applying
ensure_trailing_newline twice yields the same text as applying it
once. -/
theorem C9_ensure_idempotent (t : Str) :
    ensure_trailing_newline (ensure_trailing_newline t) =
      ensure_trailing_newline t := by
  conv_lhs => rw [ensure_trailing_newline]
  rw [if_pos (ensure_getLast t)]

/-- C10: a heading whose trimmed text contains an input marker and an
output marker is classified as an input section, never an output
section: the input test is performed first. -/
theorem C10_input_marker_precedence (title : Str)
    (hin : containsSub (trimStr title) markerSampleIn = true ∨
      containsSub (trimStr title) markerJaIn = true)
    (_hout : containsSub (trimStr title) markerSampleOut = true ∨
      containsSub (trimStr title) markerJaOut = true) :
    classify_heading title = some SampleKind.input := by
  have hcond : (containsSub (trimStr title) markerSampleIn ||
      containsSub (trimStr title) markerJaIn) = true := by
    rcases hin with h | h <;> simp [h]
  unfold classify_heading
  simp [hcond]

/-- Witness for C10 at a concrete heading carrying both markers. -/
theorem C10_witness :
    classify_heading exHeadingBoth = some SampleKind.input :=
  C10_input_marker_precedence exHeadingBoth (Or.inl (by decide))
    (Or.inl (by decide))

/-- C4: when extraction yields zero complete pairs the fetch returns the
no-samples error and performs no file write. -/
theorem C4_no_samples_error (sections : List HtmlSection) (overwrite : Bool)
    (exists0 : RPath → Bool) (dir : Str)
    (h : parse_samples sections = []) :
    fetch_samples sections overwrite exists0 dir = Except.error noSamplesMsg ∧
    writesOf (fetch_samples sections overwrite exists0 dir) = [] := by
  refine ⟨?_, ?_⟩ <;> simp [fetch_samples, h, writesOf]

/-- Witness for C4 at a concrete document with only a non-sample
section. -/
theorem C4_witness :
    fetch_samples exNoSampleSections false (fun _ => false) exDirD =
      Except.error noSamplesMsg ∧
    writesOf (fetch_samples exNoSampleSections false (fun _ => false) exDirD)
      = [] :=
  C4_no_samples_error exNoSampleSections false (fun _ => false) exDirD
    (by decide)

/-- C5: an index appears in the final collection exactly when it appears
in both the inputs accumulator and the outputs accumulator. -/
theorem C5_intersection (sections : List HtmlSection) (i : Nat) :
    (btreeGet i (parse_samples sections)).isSome =
      ((btreeGet i (inputsMap sections)).isSome &&
       (btreeGet i (outputsMap sections)).isSome) := by
  unfold parse_samples
  rw [btreeGet_combinePairs _ _ (nodup_mapKeys_inputsMap sections)]
  cases btreeGet i (inputsMap sections) <;>
    cases btreeGet i (outputsMap sections) <;> simp

/-- C7: with the overwrite flag unset, a pair whose two target files
both exist is skipped entirely, and a pair with at most one existing
target file has both files written. -/
theorem C7_skip_policy (overwrite : Bool) (exists0 : RPath → Bool)
    (dir : Str) (entry : Nat × SamplePair) (hov : overwrite = false) :
    (exists0 (RPath.mk dir (pad3 entry.1 ++ dotIn)) = true →
     exists0 (RPath.mk dir (pad3 entry.1 ++ dotOut)) = true →
     writePair overwrite exists0 dir entry = []) ∧
    (¬(exists0 (RPath.mk dir (pad3 entry.1 ++ dotIn)) = true ∧
       exists0 (RPath.mk dir (pad3 entry.1 ++ dotOut)) = true) →
     writePair overwrite exists0 dir entry =
       [FileWrite.mk (RPath.mk dir (pad3 entry.1 ++ dotIn)) entry.2.input,
        FileWrite.mk (RPath.mk dir (pad3 entry.1 ++ dotOut)) entry.2.output])
    := by
  subst hov
  constructor
  · intro h1 h2
    simp only [writePair]
    rw [if_pos (by simp [h1, h2])]
  · intro hnot
    simp only [writePair]
    rw [if_neg (fun hc => hnot ⟨hc.2.1, hc.2.2⟩)]

/-- Witness for C7: with both files present the pair is skipped, with
neither present both files are written. -/
theorem C7_witness :
    writePair false (fun _ => true) exDirD (1, SamplePair.mk exPre3LF2 exPre9)
      = [] ∧
    writePair false (fun _ => false) exDirD (1, SamplePair.mk exPre3LF2 exPre9)
      = [FileWrite.mk (RPath.mk exDirD (pad3 1 ++ dotIn)) exPre3LF2,
         FileWrite.mk (RPath.mk exDirD (pad3 1 ++ dotOut)) exPre9] :=
  ⟨(C7_skip_policy false (fun _ => true) exDirD
      (1, SamplePair.mk exPre3LF2 exPre9) rfl).1 rfl rfl,
   (C7_skip_policy false (fun _ => false) exDirD
      (1, SamplePair.mk exPre3LF2 exPre9) rfl).2 (by simp)⟩

/-- C8: the final collection is keyed in strictly ascending index
order, lookup in either accumulator is the value of the latest matching
section in document order (a later occurrence overwrites an earlier
one), and the write phase iterates the collection in that same order. -/
theorem C8_order_and_overwrite (sections : List HtmlSection) (i : Nat) :
    (mapKeys (parse_samples sections)).Pairwise (· < ·) ∧
    btreeGet i (inputsMap sections) =
      lastEntryValue SampleKind.input i sections ∧
    btreeGet i (outputsMap sections) =
      lastEntryValue SampleKind.output i sections ∧
    ∀ (overwrite : Bool) (exists0 : RPath → Bool) (dir : Str),
      writesOf (fetch_samples sections overwrite exists0 dir) =
        ((parse_samples sections).map
          (writePair overwrite exists0 dir)).flatten := by
  refine ⟨?_, inputsMap_lastEntry sections i, outputsMap_lastEntry sections i,
    ?_⟩
  · exact List.Pairwise.sublist
      (mapKeys_combinePairs_sublist (inputsMap sections) (outputsMap sections))
      (pairwise_inputsMap sections)
  · intro overwrite exists0 dir
    by_cases h : (parse_samples sections).isEmpty
    · have hnil : parse_samples sections = [] := by
        simpa [List.isEmpty_iff] using h
      simp [fetch_samples, writesOf, h, hnil]
    · simp [fetch_samples, writesOf, h]

/-- Counterexample to C1 as stated: the emitted pair of this concrete
document has an input field ending in two linefeeds, because
ensure_trailing_newline does not trim an already doubled trailing
linefeed. -/
theorem C1_counterexample :
    parse_samples exC1Sections =
      [(1, SamplePair.mk exPre3LF2 (exPre9 ++ [lfChar]))] ∧
    List.isPrefixOf [lfChar, lfChar] exPre3LF2.reverse = true := by decide

/-- C1 (amended): every emitted field ends with at least one linefeed;
the normalization appends a linefeed exactly when one is missing and
never duplicates an existing one, but a field may keep several trailing
linefeeds coming from the page. -/
theorem C1_amended (sections : List HtmlSection) (i : Nat) (p : SamplePair)
    (hmem : (i, p) ∈ parse_samples sections) :
    p.input.getLast? = some lfChar ∧ p.output.getLast? = some lfChar ∧
    (∀ t : Str, t.getLast? = some lfChar → ensure_trailing_newline t = t) ∧
    (∀ t : Str, ¬ t.getLast? = some lfChar →
      ensure_trailing_newline t = t ++ [lfChar]) := by
  have hvals := foldl_processSection_values sections ([], [])
    (by simp) (by simp)
  unfold parse_samples at hmem
  obtain ⟨hin, hout2⟩ := mem_combinePairs hmem
  refine ⟨?_, ?_, ?_, ?_⟩
  · exact hvals.1 (i, p.input) hin
  · exact hvals.2 (i, p.output) (mem_of_btreeGet hout2)
  · intro t ht
    unfold ensure_trailing_newline
    rw [if_pos ht]
  · intro t ht
    unfold ensure_trailing_newline
    rw [if_neg ht]

/-- Witness for C1 (amended) at the concrete document. -/
theorem C1_witness :
    (SamplePair.mk exPre3LF2 (exPre9 ++ [lfChar])).input.getLast?
      = some lfChar ∧
    (SamplePair.mk exPre3LF2 (exPre9 ++ [lfChar])).output.getLast?
      = some lfChar :=
  ⟨(C1_amended exC1Sections 1 (SamplePair.mk exPre3LF2 (exPre9 ++ [lfChar]))
      (by decide)).1,
   (C1_amended exC1Sections 1 (SamplePair.mk exPre3LF2 (exPre9 ++ [lfChar]))
      (by decide)).2.1⟩

/-- Counterexample to C2 as stated: on the target b_test_test the code
strips the suffix repeatedly (trim_end_matches), yielding slug b, while
stripping that suffix once as the claim states would yield b_test. -/
theorem C2_counterexample :
    (normalizeTarget exBTestTest).task_slug = exB ∧
    specSlugOnce (exBTestTest.map toAsciiLower) = exBTest ∧
    (normalizeTarget exBTestTest).task_slug ≠
      specSlugOnce (exBTestTest.map toAsciiLower) := by decide

/-- C2 (amended): after lowercasing, when the target ends with the test
suffix the binary name is the target unchanged and the slug is the
target with every trailing copy of the suffix removed (the slug itself
no longer ends with the suffix); otherwise the slug is the target and
the binary name appends one suffix copy; the filter is always the slug
followed by the all-cases suffix, and b and b_test normalize
identically. -/
theorem C2_amended (target : Str) :
    (normalizeTarget target).filter_name =
      (normalizeTarget target).task_slug ++ allCasesSuffix ∧
    (endsWithList (target.map toAsciiLower) underscoreTest = true →
      (normalizeTarget target).test_name = target.map toAsciiLower ∧
      endsWithList (normalizeTarget target).task_slug underscoreTest
        = false ∧
      ∃ k, 1 ≤ k ∧ target.map toAsciiLower =
        (normalizeTarget target).task_slug ++ repeatList underscoreTest k) ∧
    (endsWithList (target.map toAsciiLower) underscoreTest = false →
      (normalizeTarget target).test_name =
        target.map toAsciiLower ++ underscoreTest ∧
      (normalizeTarget target).task_slug = target.map toAsciiLower) ∧
    normalizeTarget exB = normalizeTarget exBTest ∧
    (normalizeTarget exB).task_slug = exB ∧
    (normalizeTarget exB).test_name = exBTest := by
  refine ⟨?_, ?_, ?_, by decide, by decide, by decide⟩
  · by_cases h : endsWithList (target.map toAsciiLower) underscoreTest = true
    · simp [normalizeTarget, h]
    · simp [normalizeTarget, h]
  · intro h
    obtain ⟨hends, k, hk⟩ :=
      trimEndMatches_spec (target.map toAsciiLower) underscoreTest (by decide)
    have hslug : (normalizeTarget target).task_slug =
        trimEndMatches (target.map toAsciiLower) underscoreTest := by
      simp [normalizeTarget, h]
    have htest : (normalizeTarget target).test_name =
        target.map toAsciiLower := by
      simp [normalizeTarget, h]
    refine ⟨htest, ?_, k, ?_, ?_⟩
    · rw [hslug]
      exact hends
    · rcases k with _ | k2
      · exfalso
        have heq : target.map toAsciiLower =
            trimEndMatches (target.map toAsciiLower) underscoreTest := by
          simpa [repeatList] using hk
        rw [heq, hends] at h
        exact Bool.noConfusion h
      · exact Nat.succ_le_succ (Nat.zero_le k2)
    · rw [hslug]
      exact hk
  · intro h
    constructor <;> simp [normalizeTarget, h]

/-- Witness for C2 (amended) at the targets b_test and b. -/
theorem C2_witness :
    (normalizeTarget exBTest).test_name = exBTest.map toAsciiLower ∧
    (normalizeTarget exB).task_slug = exB :=
  ⟨((C2_amended exBTest).2.1 (by decide)).1,
   (C2_amended exB).2.2.2.2.1⟩

/-- Counterexample to C3 as stated: the token 18446744073709551616
consists entirely of decimal digits, yet the candidate list holds only
the literal candidate, because parsing the token as usize overflows and
the zero-padded candidate is never pushed. -/
theorem C3_counterexample :
    exBigTok.all isAsciiDigit = true ∧
    candidate_inputs exDirD exBigTok = [RPath.mk exDirD (exBigTok ++ dotIn)] ∧
    candidate_inputs exDirD exBigTok ≠ specCandidates exDirD exBigTok := by
  decide

/-- C3 (amended): the literal candidate always comes first; the
zero-padded three-digit candidate is added as second and last exactly
when the token parses as usize (nonempty, all decimal digits, value at
most usize::MAX); when no candidate exists on disk, resolution fails
with the not-found message, which names the original token and the
search directory. -/
theorem C3_amended (dir t : Str) (exists0 : RPath → Bool)
    (hnone : ∀ p ∈ candidate_inputs dir t, exists0 p = false) :
    (candidate_inputs dir t).head? = some (RPath.mk dir (t ++ dotIn)) ∧
    (∀ v, parseUsize t = some v → candidate_inputs dir t =
      [RPath.mk dir (t ++ dotIn), RPath.mk dir (pad3 v ++ dotIn)]) ∧
    (parseUsize t = none → candidate_inputs dir t =
      [RPath.mk dir (t ++ dotIn)]) ∧
    resolveInput exists0 dir t = Except.error (notFoundMsg t dir) ∧
    containsSub (notFoundMsg t dir) t = true ∧
    containsSub (notFoundMsg t dir) dir = true := by
  refine ⟨?_, ?_, ?_, ?_, ?_, ?_⟩
  · by_cases h : t.all isAsciiDigit = true
    · cases hp : parseUsize t <;> simp [candidate_inputs, h, hp]
    · rw [Bool.not_eq_true] at h
      simp [candidate_inputs, h]
  · intro v hv
    have hall := parseUsize_some_all hv
    simp [candidate_inputs, hall, hv]
  · intro hv
    by_cases h : t.all isAsciiDigit = true
    · simp [candidate_inputs, h, hv]
    · rw [Bool.not_eq_true] at h
      simp [candidate_inputs, h]
  · unfold resolveInput
    rw [List.find?_eq_none.mpr]
    intro x hx
    rw [hnone x hx]
    exact Bool.noConfusion
  · unfold notFoundMsg
    simp only [List.append_assoc]
    exact containsSub_append_left _ (containsSub_append_left _
      (containsSub_self_append t _))
  · unfold notFoundMsg
    simp only [List.append_assoc]
    refine containsSub_append_left _ (containsSub_append_left _
      (containsSub_append_left _ (containsSub_append_left _
        (containsSub_append_left _ ?_))))
    exact containsSub_of_isPrefixOf
      (List.isPrefixOf_iff_prefix.mpr ⟨[], List.append_nil dir⟩)

/-- Witness for C3 (amended) at the token 42 with an empty
filesystem. -/
theorem C3_witness :
    resolveInput (fun _ => false) exDirD exTok42 =
      Except.error (notFoundMsg exTok42 exDirD) ∧
    containsSub (notFoundMsg exTok42 exDirD) exTok42 = true :=
  ⟨(C3_amended exDirD exTok42 (fun _ => false) (by decide)).2.2.2.1,
   (C3_amended exDirD exTok42 (fun _ => false) (by decide)).2.2.2.2.1⟩

/-- The digit run the closed C6 theorems instantiate. -/
def exDigits1 : Str := "1".data

/-- The Arabic-Indic digit three (U+0663): a Unicode decimal digit
that is not an ASCII digit. -/
def arabicThree : Char := Char.ofNat 0x663

/-- Concrete heading whose trailing digit run is the single non-ASCII
decimal digit U+0663. -/
def exArabicHeading : Str := "Sample Input ".data ++ [arabicThree]

/-- Counterexample to C6 as stated: the first heading carries the
trailing digit run 18446744073709551616, a nonzero index, yet the code
rejects the section (parse::<usize>() overflows, unwrap_or maps the
failure to zero and zero is discarded); the second heading ends in the
Unicode decimal digit U+0663, so the regex captures a nonempty nonzero
digit run, yet the parse fails on the non-ASCII digit and the section
is likewise dropped. -/
theorem C6_counterexample :
    specTrailingIndex exBigHeading = some 18446744073709551616 ∧
    extractedIndex exBigHeading = none ∧
    isUnicodeDigit arabicThree = true ∧
    extractTrailingDigits exArabicHeading = some [arabicThree] ∧
    extractedIndex exArabicHeading = none ∧
    processSection ([], []) (HtmlSection.mk (some exBigHeading) (some exPre9))
      = ([], []) ∧
    processSection ([], [])
      (HtmlSection.mk (some exArabicHeading) (some exPre9)) = ([], []) := by
  decide

/-- C6 (amended): the capture is the rightmost run of Unicode decimal
digits (the regex class of the backslash-d pattern in the default
Unicode mode is the general category Nd) standing at the end of the
heading before optional trailing whitespace, never an earlier run; the
section contributes the value of that run exactly when the run consists
entirely of ASCII digits, is nonzero and fits in usize: a heading with
no trailing digit run, a run containing a non-ASCII decimal digit (the
parse fails and unwrap_or yields the rejected zero), a zero index or an
overflowing run all contribute nothing. -/
theorem C6_amended (title : Str) :
    (extractedIndex title =
      match extractTrailingDigits title with
      | none => none
      | some ds =>
        if ds.all isAsciiDigit = true ∧ digitsToNat ds ≠ 0 ∧
            digitsToNat ds ≤ USIZE_MAX
        then some (digitsToNat ds) else none) ∧
    (∀ ds, extractTrailingDigits title = some ds →
      ds ≠ [] ∧ ds.all isUnicodeDigit = true ∧
      ∃ pre ws, title = pre ++ ds ++ ws ∧
        ws.all isRustWhitespace = true ∧
        ∀ c, pre.getLast? = some c → isUnicodeDigit c = false) ∧
    (extractTrailingDigits title = none →
      ∀ pre ds ws, title = pre ++ ds ++ ws → ds.all isUnicodeDigit = true →
        ws.all isRustWhitespace = true → ds = []) := by
  refine ⟨?_, ?_, fun h => extractTrailingDigits_none h⟩
  · unfold extractedIndex
    cases hd : extractTrailingDigits title with
    | none => rfl
    | some ds =>
      obtain ⟨hne, _, _⟩ := extractTrailingDigits_some hd
      dsimp only
      by_cases hascii : ds.all isAsciiDigit = true
      · rw [parseUsize_of_digits hne hascii]
        by_cases hle : digitsToNat ds ≤ USIZE_MAX
        · rw [if_pos hle]
          simp only [Option.getD_some]
          by_cases h0 : digitsToNat ds = 0
          · rw [if_pos h0, if_neg (fun hc => hc.2.1 h0)]
          · rw [if_neg h0, if_pos ⟨hascii, h0, hle⟩]
        · rw [if_neg hle]
          simp [hle]
      · have hfalse : ds.all isAsciiDigit = false :=
          Bool.eq_false_iff.mpr hascii
        rw [parseUsize_not_ascii hfalse]
        simp [hascii]
  · intro ds hd
    exact extractTrailingDigits_some hd

/-- Witness for C6 (amended) at a concrete heading with trailing run
1. -/
theorem C6_witness :
    exDigits1 ≠ [] ∧ exDigits1.all isUnicodeDigit = true ∧
    ∃ pre ws, exHeadingIn1 = pre ++ exDigits1 ++ ws ∧
      ws.all isRustWhitespace = true ∧
      ∀ c, pre.getLast? = some c → isUnicodeDigit c = false :=
  (C6_amended exHeadingIn1).2.1 exDigits1 (by decide)
